import Mathlib

/-!
Verification of the conversational turn pipeline of the Mother repository
(`src/server/src/services/eliza.service.ts` for the orchestrator and
chunker, and the current `GaianetService` bundled in
`src/server/src/services/boardroom.service.ts` — lines 462-561 — for the
generation client and sanitizer; `gaianet.service.ts` holds an older
`/completions` variant of the same service with an identical sanitizer).

Strings are modelled as `List Char`.  JavaScript string operations used by the
source (regex replacement, `split`, `trim`, `join`, concatenation) are
translated into executable structural recursions on `List Char`; each
definition carries a comment pointing at the source construct it embeds.
-/

namespace Mother

/-- Strings of the embedded program. -/
abbrev Str := List Char

/-! ## Basic JavaScript string primitives -/

/-- `begins p l` is true iff the literal `p` matches at the start of `l`
(regex literal match at one position, or `String.prototype.startsWith`). -/
def begins : Str → Str → Bool
  | [], _ => true
  | _ :: _, [] => false
  | a :: as, b :: bs => a == b && begins as bs

/-- `occursB p l` is true iff the literal `p` occurs somewhere in `l`
(a global regex with pattern `p` finds at least one match). -/
def occursB (p : Str) : Str → Bool
  | [] => begins p []
  | c :: cs => begins p (c :: cs) || occursB p cs

/-- JavaScript `String.prototype.trim`: remove leading and trailing
whitespace.  `Char.isWhitespace` covers the ASCII whitespace characters
(space, tab, carriage return, newline) which is what the program's data
contains. -/
def trim (l : Str) : Str :=
  ((l.dropWhile Char.isWhitespace).reverse.dropWhile Char.isWhitespace).reverse

/-- JavaScript `String.prototype.split` with a single-character separator:
`"".split(s) = [""]`, separators at the edges create empty pieces. -/
def splitCh (sep : Char) : Str → List Str
  | [] => [[]]
  | c :: cs =>
    if c = sep then [] :: splitCh sep cs
    else
      match splitCh sep cs with
      | [] => [[c]]
      | w :: ws => (c :: w) :: ws

/-- JavaScript `Array.prototype.join` with separator `sep`. -/
def joinWith (sep : Str) : List Str → Str
  | [] => []
  | [x] => x
  | x :: y :: rest => x ++ sep ++ joinWith sep (y :: rest)

/-! ## Response Sanitizer (`cleanResponse`, gaianet.service.ts lines 52-68)

The sanitizer applies five regex replacements and a line normalisation, in
source order:
1. `text.replace(/\(.*?\)/g, "")`          — remove lazy parenthetical spans
   (`.` does not match a newline);
2. `text.replace(/Please keep responses in character.*$/gm, "")`;
3. `text.replace(/Feel free to.*$/gm, "")`;
4. `text.replace(/You may start with.*$/gm, "")`;
5. `text.replace(/<\|eot_id\|>/g, "")`;
6. split on `"\n"`, trim each line, drop empty lines, join with `"\n"`.
-/

/-- `findClose l` scans `l` for the first `')'` that appears before any
newline, returning the remainder after it.  This is exactly how the lazy
regex `\(.*?\)` extends a match that started just before `l`: `.*?` stops at
the first `')'`, and fails if a newline (which `.` cannot match) comes
first. -/
def findClose : Str → Option Str
  | [] => none
  | c :: cs => if c = ')' then some cs else if c = '\n' then none else findClose cs

/-- One right-to-left pass computing, for the current suffix `l`, the pair
`(removeParens l, (findClose l).map removeParens)`.  The left-to-right
semantics of `text.replace(/\(.*?\)/g, "")` is: at a surviving position, if
the character is `'('` and a `')'` follows before the next newline, the whole
span through that `')'` is removed and scanning resumes after it; otherwise
the character is kept.  The second component caches the result of resuming
after the nearest `')'`, which makes the scan structurally recursive.
`removeParens_cons` and `rpAux_snd` below restate the left-to-right
recurrence and are proved from this definition. -/
def rpAux : Str → (Str × Option Str)
  | [] => ([], none)
  | c :: cs =>
    let r := rpAux cs
    (if c = '(' then
        match r.2 with
        | some v => v
        | none => c :: r.1
      else c :: r.1,
     if c = ')' then some r.1 else if c = '\n' then none else r.2)

/-- Step 1 of the sanitizer: `text.replace(/\(.*?\)/g, "")`. -/
def removeParens (l : Str) : Str := (rpAux l).1

/-- `hasParenMatch l` is true iff the regex `\(.*?\)` matches somewhere in
`l`: some position holds `'('` with a `')'` later on the same line. -/
def hasParenMatch : Str → Bool
  | [] => false
  | c :: cs => (c == '(' && (findClose cs).isSome) || hasParenMatch cs

/-- Left-to-right scanner for `text.replace(/PHRASE.*$/gm, "")` where
`PHRASE` is a literal without newlines.  In scanning mode (`false`), a
position where `PHRASE` matches starts the removal of the match — the phrase
and the rest of the line; in skipping mode (`true`) characters are dropped
until the next newline, which is kept (the `$` anchor stops before `"\n"`,
which `.` cannot consume). -/
def rlAux (p : Str) : Bool → Str → Str
  | _, [] => []
  | false, c :: cs =>
    if begins p (c :: cs) then rlAux p true cs
    else c :: rlAux p false cs
  | true, c :: cs =>
    if c = '\n' then c :: rlAux p false cs
    else rlAux p true cs

/-- Steps 2-4 of the sanitizer: `text.replace(/p.*$/gm, "")` for a literal
phrase `p` containing no newline. -/
def removeLineMatches (p : Str) (l : Str) : Str := rlAux p false l

/-- Left-to-right scanner for `text.replace(/TOKEN/g, "")` with a literal
`TOKEN`: on a match the token's characters are skipped (the counter holds how
many remain to skip), otherwise the character is kept. -/
def rtAux (p : Str) : Nat → Str → Str
  | _, [] => []
  | 0, c :: cs =>
    if begins p (c :: cs) then rtAux p (p.length - 1) cs
    else c :: rtAux p 0 cs
  | k + 1, _ :: cs => rtAux p k cs

/-- Step 5 of the sanitizer: `text.replace(/TOKEN/g, "")`. -/
def removeToken (p : Str) (l : Str) : Str := rtAux p 0 l

/-- The boilerplate phrase of step 2. -/
def phrase1 : Str := "Please keep responses in character".toList

/-- The boilerplate phrase of step 3. -/
def phrase2 : Str := "Feel free to".toList

/-- The boilerplate phrase of step 4. -/
def phrase3 : Str := "You may start with".toList

/-- The end-of-turn marker removed in step 5. -/
def eotToken : Str := "<|eot_id|>".toList

/-- Step 6 of the sanitizer:
`text.split("\n").map(l => l.trim()).filter(l => l).join("\n")`. -/
def normalizeLines (l : Str) : Str :=
  joinWith ['\n'] (((splitCh '\n' l).map trim).filter (fun x => !x.isEmpty))

/-- `cleanResponse` (gaianet.service.ts lines 52-68): the five replacements
followed by line normalisation, in source order. -/
def cleanResponse (text : Str) : Str :=
  normalizeLines (removeToken eotToken
    (removeLineMatches phrase3
      (removeLineMatches phrase2
        (removeLineMatches phrase1
          (removeParens text)))))

/-! ## Message Chunker (`splitMessage`, eliza.service.ts lines 209-232) -/

/-- `MAX_MESSAGE_LENGTH` (eliza.service.ts line 32). -/
def MAX_MESSAGE_LENGTH : Nat := 4096

/-- `text.split(" ")` of the chunker. -/
def splitWords (text : Str) : List Str := splitCh ' ' text

/-- The chunker's word loop (eliza.service.ts lines 218-229), with the
accumulated `chunks`, the running `currentChunk` and the remaining words.
The guard is `(currentChunk + " " + word).length > maxLength`, whose left
side always has length `currentChunk.length + 1 + word.length`.  On
overflow the source pushes `currentChunk.trim()` unconditionally and restarts
the buffer with `word`; otherwise it appends
`(currentChunk ? " " : "") + word`.  After the loop the final buffer is
pushed (trimmed) only if it is non-empty (`if (currentChunk)`). -/
def splitLoop (maxLength : Nat) : List Str → Str → List Str → List Str
  | chunks, current, [] =>
    if current = [] then chunks else chunks ++ [trim current]
  | chunks, current, w :: ws =>
    if maxLength < current.length + 1 + w.length then
      splitLoop maxLength (chunks ++ [trim current]) w ws
    else
      splitLoop maxLength chunks (if current = [] then w else current ++ ' ' :: w) ws

/-- `splitMessage` with the size bound as an explicit parameter (the source
hard-codes `MAX_MESSAGE_LENGTH`; the spec states the chunker contract for an
arbitrary `maxLength`).  If `text.length <= maxLength` the single-element
sequence `[text]` is returned (eliza.service.ts lines 210-212). -/
def splitMessageWith (maxLength : Nat) (text : Str) : List Str :=
  if text.length ≤ maxLength then [text]
  else splitLoop maxLength [] [] (splitWords text)

/-- `splitMessage` (eliza.service.ts lines 209-232). -/
def splitMessage (text : Str) : List Str := splitMessageWith MAX_MESSAGE_LENGTH text

/-! ## Generation Client (`GaianetService.generateText`)

The repository bundles two versions of the `GaianetService`.  The older one
(gaianet.service.ts) posts to `{serverUrl}/completions` with a raw-prompt
body and has no empty-after-cleaning check.  The current, spec-matching one
is bundled in boardroom.service.ts (lines 462-561): it posts to
`{serverUrl}/chat/completions` with a chat-messages body, reads
`choices[0].message.content`, and fails when the cleaned text is empty.
Both versions contain a character-identical `cleanResponse`.  The embedding
below is of the spec-matching version (boardroom.service.ts lines 511-561).
-/

/-- Token usage as reported by the backend (`usage`). -/
structure GaiaUsage where
  prompt_tokens : Nat
  completion_tokens : Nat
  total_tokens : Nat
deriving DecidableEq

/-- The `message` object of one choice (boardroom.service.ts
lines 447-450). -/
structure GaiaMessage where
  role : Str
  content : Str
deriving DecidableEq

/-- One element of the `choices` array of the backend response
(boardroom.service.ts lines 444-451); the fields the code reads are
`finish_reason` (for the error messages) and `message.content`. -/
structure GaiaChoice where
  finish_reason : Str
  index : Nat
  message : GaiaMessage
deriving DecidableEq

/-- The parsed success-response envelope (`GaiaNetResponse` interface,
boardroom.service.ts lines 442-460; the unread metadata fields `id`,
`created`, `model`, `object` are omitted). -/
structure GaiaNetResponse where
  choices : List GaiaChoice
  usage : Option GaiaUsage
deriving DecidableEq

/-- Outcome of the single `fetch` call inside `generateText`: the transport
itself may reject, the backend may answer non-2xx (`!response.ok`, with its
status and body text), `response.json()` may fail to parse, or a parsed
envelope is obtained. -/
inductive FetchOutcome where
  | fetchFailed
  | httpError (status : Nat) (body : Str)
  | invalidJson
  | ok (data : GaiaNetResponse)
deriving DecidableEq

/-- The errors `generateText` can throw (boardroom.service.ts lines 525-547):
the re-thrown transport error; `GAIANET API error: {status} {body}` for a
non-2xx status; the JSON parse error; `GAIANET returned empty response
(finish_reason: ...)` when `data?.choices?.[0]?.message?.content` is falsy
(the finish reason is absent when there is no first choice); and `GAIANET
returned empty response after cleaning (finish_reason: ...)` when
`cleanResponse` yields the empty string. -/
inductive GenError where
  | fetchFailed
  | apiError (status : Nat) (body : Str)
  | invalidJson
  | emptyResponse (finishReason : Option Str)
  | emptyCleaned (finishReason : Str)
deriving DecidableEq

/-- The `TextResponse` returned by `generateText` (boardroom.service.ts
lines 433-440). -/
structure TextResponse where
  text : Str
  usage : GaiaUsage
deriving DecidableEq

/-- The zero usage object substituted when the backend omits `usage`
(boardroom.service.ts lines 551-555). -/
def zeroUsage : GaiaUsage := ⟨0, 0, 0⟩

/-- `generateText` (boardroom.service.ts lines 511-561) as a function of the
fetch outcome: classify transport/HTTP/parse failures; fail with the
empty-response error when `data?.choices?.[0]?.message?.content` is falsy
(missing first choice, or empty content string); otherwise sanitize the
content with `cleanResponse`, fail with the empty-after-cleaning error when
the sanitized text is empty, and otherwise succeed with the sanitized text
and the usage defaulted to zeros. -/
def generateText (resp : FetchOutcome) : Except GenError TextResponse :=
  match resp with
  | .fetchFailed => .error .fetchFailed
  | .httpError status body => .error (.apiError status body)
  | .invalidJson => .error .invalidJson
  | .ok data =>
    match data.choices with
    | [] => .error (.emptyResponse none)
    | c :: _ =>
      if c.message.content = [] then .error (.emptyResponse (some c.finish_reason))
      else
        let cleaned := cleanResponse c.message.content
        if cleaned = [] then .error (.emptyCleaned c.finish_reason)
        else .ok { text := cleaned, usage := data.usage.getD zeroUsage }

/-- The JSON body of the outbound request: the configured model, the
`messages` array as (role, content) pairs, and `max_tokens`. -/
inductive RequestBody where
  | chatBody (model : Option Str) (messages : List (Str × Str)) (maxTokens : Nat)
deriving DecidableEq

/-- The shape of an outbound HTTP request: URL, whether the method is POST,
and the JSON body. -/
structure HttpRequest where
  url : Str
  isPost : Bool
  body : RequestBody
deriving DecidableEq

/-- The single request built by `generateText` (boardroom.service.ts
lines 513-523): `POST {serverUrl}/chat/completions` with body
`{model, messages: [{role: "user", content: prompt}], max_tokens: 500}`. -/
def gaianetRequest (serverUrl : Str) (model : Option Str) (prompt : Str) : HttpRequest :=
  { url := serverUrl ++ "/chat/completions".toList
    isPost := true
    body := .chatBody model [("user".toList, prompt)] 500 }

/-! ## Turn Orchestrator (`processMessage`, eliza.service.ts lines 135-206)

`processMessage` is modelled as a function of the generation outcome (the
result of the awaited `generateText` call, or the error any earlier step of
the `try` block threw) and of the platform adapter's behaviour.  The adapter
is one capability `reply`; its behaviour is a function `ok : Nat → Bool`
giving, for the n-th `reply` call of the turn, whether that call resolves
(`true`) or rejects (`false`).  The model returns the list of texts passed to
`reply` in call order, and whether the promise returned by `processMessage`
fulfills (`true`) or rejects (`false`).
-/

/-- The fallback message delivered by the `catch` block (eliza.service.ts
lines 202-204). -/
def fallbackText : Str :=
  "Sorry, I encountered an error while processing your message.".toList

/-- The built-in fallback template (eliza.service.ts lines 156-159). -/
def fallbackTemplate : Str :=
  "You are \x7b\x7bagentName\x7d\x7d. Current message: \x7b\x7bcurrentPost\x7d\x7d. Respond:".toList

/-- Template resolution (eliza.service.ts lines 151-159):
`character.templates?.messageHandlerTemplate || ""` followed by
`if (!template) template = <fallback>`.  An absent template and an empty
template both resolve to the built-in fallback. -/
def resolveTemplate (mt : Option Str) : Str :=
  let t := mt.getD []
  if t = [] then fallbackTemplate else t

/-- The `for (const chunk of chunks) await adapter.reply(chunk)` loop
(eliza.service.ts lines 197-199), starting at call index `i`: each delivery
is awaited; the first rejecting call aborts the loop (the exception
propagates to the `catch`).  Returns the texts passed to `reply` and
`some j` when call `j` rejected (`none` when every delivery resolved). -/
def deliverSeq (ok : Nat → Bool) : Nat → List Str → (List Str × Option Nat)
  | _, [] => ([], none)
  | i, c :: cs =>
    if ok i then
      let r := deliverSeq ok (i + 1) cs
      (c :: r.1, r.2)
    else ([c], some i)

/-- `processMessage` (eliza.service.ts lines 135-206) from the point where
the generation outcome is known: on success, chunk the response text with
`splitMessage` and deliver the chunks sequentially; any rejection — of the
generation step or of an individual delivery — lands in the `catch` block,
which issues exactly one further `reply` with the fallback text.  The
returned promise rejects only if that fallback `reply` itself rejects. -/
def processMessage (gen : Except GenError TextResponse) (ok : Nat → Bool) :
    List Str × Bool :=
  match gen with
  | .error _ => ([fallbackText], ok 0)
  | .ok resp =>
    let chunks := splitMessage resp.text
    let r := deliverSeq ok 0 chunks
    match r.2 with
    | none => (r.1, true)
    | some i => (r.1 ++ [fallbackText], ok (i + 1))

/-- The full turn pipeline: the fetch outcome is classified by the Generation
Client and the result drives the Orchestrator. -/
def processTurn (fetch : FetchOutcome) (ok : Nat → Bool) : List Str × Bool :=
  processMessage (generateText fetch) ok

/-! ## Whitespace normalisation (used to state the reconstruction claim)

`tokens l` lists the maximal runs of non-whitespace characters of `l`;
`normalizeWs l` joins them with single spaces.  This is the "collapse
consecutive whitespace" reading of the chunk-reconstruction invariant. -/

/-- Accumulating scanner for `tokens`: the first argument holds the current
(reversed) run of non-whitespace characters, if one is open. -/
def tokensAux : Option Str → Str → List Str
  | none, [] => []
  | some w, [] => [w.reverse]
  | none, c :: cs =>
    if c.isWhitespace then tokensAux none cs else tokensAux (some [c]) cs
  | some w, c :: cs =>
    if c.isWhitespace then w.reverse :: tokensAux none cs
    else tokensAux (some (c :: w)) cs

/-- The maximal non-whitespace runs of `l`, in order. -/
def tokens (l : Str) : List Str := tokensAux none l

/-- `flatTok ls` concatenates the token lists of the strings in `ls`. -/
def flatTok : List Str → List Str
  | [] => []
  | x :: xs => tokens x ++ flatTok xs

/-- Collapse every whitespace run of `l` to a single space and trim the
ends. -/
def normalizeWs (l : Str) : Str := joinWith [' '] (tokens l)

end Mother


namespace Mother

/-! ## Helper lemmas: `splitCh`, `joinWith`, `trim` -/

theorem splitCh_ne_nil (sep : Char) (l : Str) : splitCh sep l ≠ [] := by
  induction l with
  | nil => simp [splitCh]
  | cons c cs ih =>
    simp only [splitCh]
    split
    · simp
    · cases h : splitCh sep cs with
      | nil => simp
      | cons w ws => simp

theorem not_mem_of_mem_splitCh {sep : Char} {l : Str} {w : Str}
    (hw : w ∈ splitCh sep l) : sep ∉ w := by
  induction l generalizing w with
  | nil =>
    simp [splitCh] at hw
    simp [hw]
  | cons c cs ih =>
    simp only [splitCh] at hw
    by_cases hc : c = sep
    · simp [hc] at hw
      rcases hw with h | h
      · simp [h]
      · exact ih h
    · simp [hc] at hw
      cases h : splitCh sep cs with
      | nil => exact absurd h (splitCh_ne_nil sep cs)
      | cons v vs =>
        rw [h] at hw
        simp at hw
        rcases hw with h1 | h1
        · subst h1
          intro hmem
          rcases List.mem_cons.mp hmem with h2 | h2
          · exact hc h2.symm
          · exact ih (h ▸ List.mem_cons_self v vs) h2
        · exact ih (h ▸ List.mem_cons_of_mem v h1)

theorem splitCh_eq_single {sep : Char} {l : Str} (h : sep ∉ l) :
    splitCh sep l = [l] := by
  induction l with
  | nil => rfl
  | cons c cs ih =>
    have hc : ¬ c = sep := fun hc => h (hc ▸ List.mem_cons_self c cs)
    have hcs : sep ∉ cs := fun hm => h (List.mem_cons_of_mem c hm)
    simp [splitCh, ih hcs, hc]

theorem joinWith_splitCh (sep : Char) (l : Str) :
    joinWith [sep] (splitCh sep l) = l := by
  induction l with
  | nil => rfl
  | cons c cs ih =>
    simp only [splitCh]
    by_cases hc : c = sep
    · subst hc
      simp only [if_pos rfl]
      cases h : splitCh c cs with
      | nil => exact absurd h (splitCh_ne_nil c cs)
      | cons w ws =>
        rw [h] at ih
        simp [joinWith, ih]
    · simp only [if_neg hc]
      cases h : splitCh sep cs with
      | nil => exact absurd h (splitCh_ne_nil sep cs)
      | cons w ws =>
        rw [h] at ih
        cases ws with
        | nil => simp only [joinWith] at ih ⊢; rw [ih]
        | cons y rest =>
          simp only [joinWith] at ih ⊢
          simp only [List.cons_append, List.append_assoc] at ih ⊢
          rw [ih]

theorem splitCh_append_cons {sep : Char} {x : Str} (t : Str) (h : sep ∉ x) :
    splitCh sep (x ++ sep :: t) = x :: splitCh sep t := by
  induction x with
  | nil => simp [splitCh]
  | cons c cs ih =>
    have hc : ¬ c = sep := fun hc => h (hc ▸ List.mem_cons_self c cs)
    have hcs : sep ∉ cs := fun hm => h (List.mem_cons_of_mem c hm)
    simp [List.cons_append, splitCh, hc, ih hcs]

theorem splitCh_joinWith {sep : Char} {ls : List Str} (h1 : ls ≠ [])
    (h2 : ∀ li ∈ ls, sep ∉ li) : splitCh sep (joinWith [sep] ls) = ls := by
  induction ls with
  | nil => exact absurd rfl h1
  | cons x xs ih =>
    cases xs with
    | nil =>
      simp only [joinWith]
      exact splitCh_eq_single (h2 x (List.mem_cons_self x []))
    | cons y rest =>
      simp only [joinWith]
      have hx : sep ∉ x := h2 x (List.mem_cons_self x _)
      have heq : x ++ [sep] ++ joinWith [sep] (y :: rest) =
          x ++ sep :: joinWith [sep] (y :: rest) := by simp
      rw [heq, splitCh_append_cons _ hx,
        ih (by simp) (fun li hli => h2 li (List.mem_cons_of_mem x hli))]

theorem dropWhile_cases (p : Char → Bool) (l : Str) :
    l.dropWhile p = [] ∨ ∃ a as, l.dropWhile p = a :: as ∧ p a = false := by
  induction l with
  | nil => exact Or.inl rfl
  | cons c cs ih =>
    by_cases hc : p c = true
    · simpa [List.dropWhile, hc] using ih
    · right
      exact ⟨c, cs, by simp [List.dropWhile, hc], by simpa using hc⟩

theorem dropWhile_dropWhile (p : Char → Bool) (l : Str) :
    (l.dropWhile p).dropWhile p = l.dropWhile p := by
  rcases dropWhile_cases p l with h | ⟨a, as, h, ha⟩
  · simp [h]
  · simp [h, List.dropWhile, ha]

theorem dropWhile_head_false {p : Char → Bool} {l : Str} {b : Char} {bs : Str}
    (h : l.dropWhile p = b :: bs) : p b = false := by
  rcases dropWhile_cases p l with h2 | ⟨a, as, h2, ha⟩
  · rw [h] at h2
    exact absurd h2 (by simp)
  · rw [h] at h2
    injection h2 with e1 _
    rw [e1]
    exact ha

theorem mem_of_mem_dropWhile {p : Char → Bool} {l : Str} {a : Char}
    (h : a ∈ l.dropWhile p) : a ∈ l :=
  (List.dropWhile_suffix p).subset h

theorem length_dropWhile_le (p : Char → Bool) (l : Str) :
    (l.dropWhile p).length ≤ l.length :=
  (List.dropWhile_suffix p).sublist.length_le

theorem dropWhile_eq_self_of (p : Char → Bool) (l : Str)
    (h : ∀ c ∈ l, p c = false) : l.dropWhile p = l := by
  cases l with
  | nil => rfl
  | cons c cs => simp [List.dropWhile, h c (List.mem_cons_self c cs)]

/-- `trim l` removes a whitespace suffix from `l.dropWhile isWhitespace`. -/
theorem trim_decomp (l : Str) :
    l.dropWhile Char.isWhitespace =
      trim l ++ ((l.dropWhile Char.isWhitespace).reverse.takeWhile Char.isWhitespace).reverse := by
  conv => lhs; rw [← List.reverse_reverse (l.dropWhile Char.isWhitespace)]
  conv =>
    lhs; rw [← List.takeWhile_append_dropWhile Char.isWhitespace
      (l.dropWhile Char.isWhitespace).reverse]
  rw [List.reverse_append]
  rfl

theorem mem_of_mem_trim {l : Str} {a : Char} (h : a ∈ trim l) : a ∈ l := by
  have h1 : a ∈ l.dropWhile Char.isWhitespace := by
    rw [trim_decomp l]
    exact List.mem_append.mpr (Or.inl h)
  exact mem_of_mem_dropWhile h1

theorem length_trim_le (l : Str) : (trim l).length ≤ l.length := by
  have h1 : (trim l).length ≤ (l.dropWhile Char.isWhitespace).length := by
    rw [trim_decomp l]
    simp
  exact le_trans h1 (length_dropWhile_le _ l)

theorem dropWhile_trim (l : Str) :
    (trim l).dropWhile Char.isWhitespace = trim l := by
  cases htl : trim l with
  | nil => rfl
  | cons b bs =>
    have hA := trim_decomp l
    rw [htl] at hA
    have hb : b.isWhitespace = false := dropWhile_head_false hA
    simp [List.dropWhile, hb]

theorem trim_idem (l : Str) : trim (trim l) = trim l := by
  have hBrev : (trim l).reverse =
      (l.dropWhile Char.isWhitespace).reverse.dropWhile Char.isWhitespace := by
    simp [trim]
  show (((trim l).dropWhile Char.isWhitespace).reverse.dropWhile Char.isWhitespace).reverse = trim l
  rw [dropWhile_trim, hBrev, dropWhile_dropWhile, ← hBrev, List.reverse_reverse]

theorem trim_eq_self_of (l : Str) (h : ∀ c ∈ l, c.isWhitespace = false) :
    trim l = l := by
  unfold trim
  rw [dropWhile_eq_self_of _ _ h,
    dropWhile_eq_self_of _ _ (fun c hc => h c (List.mem_reverse.mp hc)),
    List.reverse_reverse]

theorem map_eq_self_of {f : Str → Str} {l : List Str}
    (h : ∀ a ∈ l, f a = a) : l.map f = l := by
  induction l with
  | nil => rfl
  | cons x xs ih =>
    simp only [List.map_cons, h x (List.mem_cons_self x xs),
      ih (fun a ha => h a (List.mem_cons_of_mem x ha))]

end Mother

namespace Mother

/-! ## Sanitizer lemmas -/

theorem rpAux_snd (l : Str) :
    (rpAux l).2 = (findClose l).map (fun r => (rpAux r).1) := by
  induction l with
  | nil => rfl
  | cons c cs ih =>
    simp only [rpAux, findClose]
    by_cases h1 : c = ')'
    · simp [h1]
    · by_cases h2 : c = '\n'
      · simp [h1, h2]
      · simp [h1, h2, ih]

/-- The left-to-right recurrence of `text.replace(/\(.*?\)/g, "")`: a `'('`
with a close paren on its line removes the span and resumes after it. -/
theorem removeParens_cons (c : Char) (cs : Str) :
    removeParens (c :: cs) =
      if c = '(' then
        match findClose cs with
        | some rest => removeParens rest
        | none => c :: removeParens cs
      else c :: removeParens cs := by
  by_cases h1 : c = '('
  · rcases hfc : findClose cs with _ | rest
    · have h2 : (rpAux cs).2 = none := by rw [rpAux_snd, hfc]; rfl
      simp [removeParens, rpAux, h1, h2, hfc]
    · have h2 : (rpAux cs).2 = some (removeParens rest) := by rw [rpAux_snd, hfc]; rfl
      simp [removeParens, rpAux, h1, h2, hfc]
  · simp [removeParens, rpAux, h1]

theorem removeParens_no_match {l : Str} (h : hasParenMatch l = false) :
    removeParens l = l := by
  induction l with
  | nil => rfl
  | cons c cs ih =>
    simp only [hasParenMatch, Bool.or_eq_false_iff] at h
    rw [removeParens_cons]
    by_cases h1 : c = '('
    · rcases hfc : findClose cs with _ | rest
      · simp [h1, hfc, ih h.2]
      · exfalso
        have := h.1
        rw [hfc] at this
        simp [h1] at this
    · simp [h1, ih h.2]

theorem rlAux_no_occur {p : Str} {l : Str} (h : occursB p l = false) :
    rlAux p false l = l := by
  induction l with
  | nil => rfl
  | cons c cs ih =>
    simp only [occursB, Bool.or_eq_false_iff] at h
    simp [rlAux, h.1, ih h.2]

theorem rtAux_no_occur {p : Str} {l : Str} (h : occursB p l = false) :
    rtAux p 0 l = l := by
  induction l with
  | nil => rfl
  | cons c cs ih =>
    simp only [occursB, Bool.or_eq_false_iff] at h
    simp [rtAux, h.1, ih h.2]

/-- `normalizeLines` fixes any join of newline-free, trimmed, non-empty
lines. -/
theorem normalizeLines_fix {L : List Str}
    (hmem : ∀ li ∈ L, ('\n' ∉ li) ∧ trim li = li ∧ li ≠ []) :
    normalizeLines (joinWith ['\n'] L) = joinWith ['\n'] L := by
  cases L with
  | nil => rfl
  | cons x xs =>
    unfold normalizeLines
    rw [splitCh_joinWith (by simp) (fun li hli => (hmem li hli).1),
      map_eq_self_of (fun a ha => (hmem a ha).2.1),
      List.filter_eq_self.mpr (fun a ha => by simpa using (hmem a ha).2.2)]

theorem normalizeLines_idem (l : Str) :
    normalizeLines (normalizeLines l) = normalizeLines l := by
  have hmem : ∀ li ∈ ((splitCh '\n' l).map trim).filter (fun x => !x.isEmpty),
      ('\n' ∉ li) ∧ trim li = li ∧ li ≠ [] := by
    intro li hli
    have hfilter := List.mem_filter.mp hli
    rcases List.mem_map.mp hfilter.1 with ⟨w, hw, hwe⟩
    refine ⟨?_, ?_, by simpa using hfilter.2⟩
    · intro hmm
      exact not_mem_of_mem_splitCh hw (mem_of_mem_trim (hwe ▸ hmm))
    · rw [← hwe]
      exact trim_idem w
  exact normalizeLines_fix hmem

/-! Sanity checks of the sanitizer translation against the JavaScript
behaviour of `cleanResponse` (including the end-to-end scenario A text of the
spec). -/

example : removeParens ("x ( (a) y )".toList) = ("x  y )".toList) := by decide

example : removeParens ("((x))".toList) = (")".toList) := by decide

example : cleanResponse ("(smiles) Hello there!".toList) = ("Hello there!".toList) := by
  decide

example : cleanResponse ("a\nFeel free to whatever\n  b  ".toList) = ("a\nb".toList) := by
  decide

end Mother

namespace Mother

/-- Claim C3 as stated is false: the Sanitizer is not idempotent.  On the
input `"Please keep responses in char<|eot_id|>acter"` the first pass finds
no boilerplate phrase (the end-of-turn marker splits it), but removing the
marker glues the phrase together, so the second pass removes the whole line
while the first pass returned it. -/
theorem c3_counterexample :
    cleanResponse (cleanResponse ("Please keep responses in char<|eot_id|>acter".toList)) ≠
      cleanResponse ("Please keep responses in char<|eot_id|>acter".toList) := by
  decide

/-- Claim C3 (amended): applying the Sanitizer twice equals applying it once
for every input whose sanitized form contains no parenthetical match, no
boilerplate phrase and no end-of-turn marker — i.e. whenever the first pass
did not itself manufacture new removable material. -/
theorem c3_sanitize_idem_of_stable (x : Str)
    (h1 : hasParenMatch (cleanResponse x) = false)
    (h2 : occursB phrase1 (cleanResponse x) = false)
    (h3 : occursB phrase2 (cleanResponse x) = false)
    (h4 : occursB phrase3 (cleanResponse x) = false)
    (h5 : occursB eotToken (cleanResponse x) = false) :
    cleanResponse (cleanResponse x) = cleanResponse x := by
  have hy : cleanResponse (cleanResponse x) = normalizeLines (cleanResponse x) := by
    show normalizeLines (removeToken eotToken (removeLineMatches phrase3
      (removeLineMatches phrase2 (removeLineMatches phrase1
        (removeParens (cleanResponse x)))))) = _
    rw [removeParens_no_match h1,
      show removeLineMatches phrase1 (cleanResponse x) = cleanResponse x from
        rlAux_no_occur h2,
      show removeLineMatches phrase2 (cleanResponse x) = cleanResponse x from
        rlAux_no_occur h3,
      show removeLineMatches phrase3 (cleanResponse x) = cleanResponse x from
        rlAux_no_occur h4,
      show removeToken eotToken (cleanResponse x) = cleanResponse x from
        rtAux_no_occur h5]
  rw [hy]
  exact normalizeLines_idem (removeToken eotToken (removeLineMatches phrase3
    (removeLineMatches phrase2 (removeLineMatches phrase1 (removeParens x)))))

/-- Witness: the amended C3 theorem applied at the concrete input
`"Hello (world) there"`, whose sanitized form satisfies every stability
hypothesis. -/
theorem c3_witness :
    (hasParenMatch (cleanResponse ("Hello (world) there".toList)) = false ∧
     occursB phrase1 (cleanResponse ("Hello (world) there".toList)) = false ∧
     occursB phrase2 (cleanResponse ("Hello (world) there".toList)) = false ∧
     occursB phrase3 (cleanResponse ("Hello (world) there".toList)) = false ∧
     occursB eotToken (cleanResponse ("Hello (world) there".toList)) = false) ∧
    cleanResponse (cleanResponse ("Hello (world) there".toList)) =
      cleanResponse ("Hello (world) there".toList) :=
  ⟨⟨by decide, by decide, by decide, by decide, by decide⟩,
   c3_sanitize_idem_of_stable ("Hello (world) there".toList)
     (by decide) (by decide) (by decide) (by decide) (by decide)⟩

end Mother

namespace Mother

/-! ## Chunker lemmas -/

theorem splitLoop_acc_ne_nil {maxLength : Nat} {ws : List Str} :
    ∀ {chunks : List Str} {current : Str}, chunks ≠ [] →
      splitLoop maxLength chunks current ws ≠ [] := by
  induction ws with
  | nil =>
    intro chunks current h
    by_cases hc : current = [] <;> simp [splitLoop, hc, h]
  | cons w ws' ih =>
    intro chunks current h
    by_cases hg : maxLength < current.length + 1 + w.length
    · simp only [splitLoop, if_pos hg]
      exact ih (by simp)
    · simp only [splitLoop, if_neg hg]
      exact ih h

theorem splitLoop_cur_ne_nil {maxLength : Nat} {ws : List Str} :
    ∀ {chunks : List Str} {current : Str}, current ≠ [] →
      splitLoop maxLength chunks current ws ≠ [] := by
  induction ws with
  | nil =>
    intro chunks current h
    simp [splitLoop, h]
  | cons w ws' ih =>
    intro chunks current h
    by_cases hg : maxLength < current.length + 1 + w.length
    · simp only [splitLoop, if_pos hg]
      exact splitLoop_acc_ne_nil (by simp)
    · simp only [splitLoop, if_neg hg]
      by_cases hc : current = []
      · exact absurd hc h
      · simp only [if_neg hc]
        exact ih (by simp [hc])

theorem splitLoop_words_ne_nil {maxLength : Nat} {ws : List Str} :
    ∀ {chunks : List Str} {current : Str}, (∃ w ∈ ws, w ≠ []) →
      splitLoop maxLength chunks current ws ≠ [] := by
  induction ws with
  | nil =>
    intro chunks current h
    rcases h with ⟨w, hw, _⟩
    exact absurd hw (List.not_mem_nil w)
  | cons w ws' ih =>
    intro chunks current h
    by_cases hg : maxLength < current.length + 1 + w.length
    · simp only [splitLoop, if_pos hg]
      exact splitLoop_acc_ne_nil (by simp)
    · simp only [splitLoop, if_neg hg]
      by_cases hc : current = []
      · simp only [if_pos hc]
        by_cases hw : w = []
        · rcases h with ⟨w0, hw0, hw0ne⟩
          rcases List.mem_cons.mp hw0 with h1 | h1
          · exact absurd (h1 ▸ hw) hw0ne
          · exact ih ⟨w0, h1, hw0ne⟩
        · exact splitLoop_cur_ne_nil hw
      · simp only [if_neg hc]
        exact splitLoop_cur_ne_nil (by simp [hc])

theorem exists_word_ne_nil {l : Str} (h : ∃ c ∈ l, c ≠ ' ') :
    ∃ w ∈ splitWords l, w ≠ [] := by
  induction l with
  | nil =>
    rcases h with ⟨c, hc, _⟩
    exact absurd hc (List.not_mem_nil c)
  | cons c cs ih =>
    by_cases hc : c = ' '
    · have h2 : ∃ c0 ∈ cs, c0 ≠ ' ' := by
        rcases h with ⟨c0, hc0, hc0ne⟩
        rcases List.mem_cons.mp hc0 with h1 | h1
        · exact absurd (h1.trans hc) hc0ne
        · exact ⟨c0, h1, hc0ne⟩
      rcases ih h2 with ⟨w, hw, hwne⟩
      refine ⟨w, ?_, hwne⟩
      simp only [splitWords, splitCh, if_pos hc]
      exact List.mem_cons_of_mem _ hw
    · cases hs : splitCh ' ' cs with
      | nil => exact absurd hs (splitCh_ne_nil ' ' cs)
      | cons v vs =>
        refine ⟨c :: v, ?_, by simp⟩
        simp only [splitWords, splitCh, if_neg hc, hs]
        exact List.mem_cons_self _ _

theorem splitLoop_bound {maxLength : Nat} {ws : List Str} :
    ∀ {chunks : List Str} {current : Str},
      (∀ c ∈ chunks, c.length ≤ maxLength ∨ ' ' ∉ c) →
      (current.length ≤ maxLength ∨ ' ' ∉ current) →
      (∀ w ∈ ws, ' ' ∉ w) →
      ∀ c ∈ splitLoop maxLength chunks current ws,
        c.length ≤ maxLength ∨ ' ' ∉ c := by
  induction ws with
  | nil =>
    intro chunks current hch hcur _ c hc
    by_cases h : current = []
    · rw [splitLoop] at hc
      rw [if_pos h] at hc
      exact hch c hc
    · rw [splitLoop] at hc
      rw [if_neg h] at hc
      rcases List.mem_append.mp hc with h1 | h1
      · exact hch c h1
      · have : c = trim current := by simpa using h1
        subst this
        rcases hcur with h2 | h2
        · exact Or.inl (le_trans (length_trim_le current) h2)
        · exact Or.inr (fun hm => h2 (mem_of_mem_trim hm))
  | cons w ws' ih =>
    intro chunks current hch hcur hws c hc
    have hwsp : ' ' ∉ w := hws w (List.mem_cons_self w ws')
    have hws' : ∀ v ∈ ws', ' ' ∉ v := fun v hv => hws v (List.mem_cons_of_mem w hv)
    by_cases hg : maxLength < current.length + 1 + w.length
    · rw [splitLoop, if_pos hg] at hc
      refine ih ?_ (Or.inr hwsp) hws' c hc
      intro d hd
      rcases List.mem_append.mp hd with h1 | h1
      · exact hch d h1
      · have : d = trim current := by simpa using h1
        subst this
        rcases hcur with h2 | h2
        · exact Or.inl (le_trans (length_trim_le current) h2)
        · exact Or.inr (fun hm => h2 (mem_of_mem_trim hm))
    · rw [splitLoop, if_neg hg] at hc
      push_neg at hg
      by_cases hcur0 : current = []
      · rw [if_pos hcur0] at hc
        exact ih hch (Or.inl (by omega)) hws' c hc
      · rw [if_neg hcur0] at hc
        refine ih hch (Or.inl ?_) hws' c hc
        simp only [List.length_append, List.length_cons]
        omega

/-- Claim C4 as stated is false: with `maxLength = 1` and input `"aa bb"` the
chunker emits the empty chunk `""` (refuting "no emitted chunk is the empty
string") and two oversized single-word chunks (refuting "at most one such
oversized chunk"). -/
theorem c4_counterexample :
    splitMessageWith 1 ("aa bb".toList) = [[], "aa".toList, "bb".toList] ∧
    ([] : Str) ∈ splitMessageWith 1 ("aa bb".toList) ∧
    ((splitMessageWith 1 ("aa bb".toList)).filter
      (fun c => decide (1 < c.length))).length = 2 := by
  refine ⟨by decide, by decide, by decide⟩

/-- Claim C4 (amended): for every `maxLength ≥ 1` and every input, every
emitted chunk either has length at most `maxLength` or contains no space (it
came from a single word longer than `maxLength`; several such oversized
chunks can occur, one per oversized word); chunks can be empty; and the
emitted sequence is non-empty whenever the input contains a non-space
character (an input of spaces only can produce the empty sequence). -/
theorem c4_chunk_bounds (maxLength : Nat) (text : Str) (hmax : 1 ≤ maxLength) :
    (∀ c ∈ splitMessageWith maxLength text, c.length ≤ maxLength ∨ ' ' ∉ c) ∧
    ((∃ ch ∈ text, ch ≠ ' ') → splitMessageWith maxLength text ≠ []) := by
  unfold splitMessageWith
  by_cases hlen : text.length ≤ maxLength
  · rw [if_pos hlen]
    constructor
    · intro c hc
      have : c = text := by simpa using hc
      subst this
      exact Or.inl hlen
    · intro _
      simp
  · rw [if_neg hlen]
    constructor
    · exact splitLoop_bound (by simp) (Or.inl (by simp))
        (fun w hw => not_mem_of_mem_splitCh hw)
    · intro hex
      exact splitLoop_words_ne_nil (exists_word_ne_nil hex)

/-- Witness: the amended C4 theorem applied at `maxLength = 2`,
`text = "abc d"`. -/
theorem c4_witness :
    (1 ≤ 2 ∧ (∃ ch ∈ ("abc d".toList), ch ≠ ' ')) ∧
    (∀ c ∈ splitMessageWith 2 ("abc d".toList), c.length ≤ 2 ∨ ' ' ∉ c) ∧
    splitMessageWith 2 ("abc d".toList) ≠ [] :=
  ⟨⟨by decide, by decide⟩,
   (c4_chunk_bounds 2 ("abc d".toList) (by decide)).1,
   (c4_chunk_bounds 2 ("abc d".toList) (by decide)).2 (by decide)⟩

end Mother

namespace Mother

/-! ## Token lemmas (whitespace-normalised reconstruction) -/

theorem tokensAux_none_allws {S : Str} (h : ∀ c ∈ S, c.isWhitespace = true) :
    tokensAux none S = [] := by
  induction S with
  | nil => rfl
  | cons c S' ih =>
    simp only [tokensAux, h c (List.mem_cons_self c S'), if_pos]
    exact ih (fun d hd => h d (List.mem_cons_of_mem c hd))

theorem tokensAux_some_allws {S : Str} (w : Str)
    (h : ∀ c ∈ S, c.isWhitespace = true) :
    tokensAux (some w) S = [w.reverse] := by
  cases S with
  | nil => rfl
  | cons c S' =>
    simp only [tokensAux, h c (List.mem_cons_self c S'), if_pos]
    rw [tokensAux_none_allws (fun d hd => h d (List.mem_cons_of_mem c hd))]

theorem tokensAux_append_ws {c : Char} (hc : c.isWhitespace = true) (b : Str) :
    ∀ (a : Str) (acc : Option Str),
      tokensAux acc (a ++ c :: b) = tokensAux acc a ++ tokensAux none b := by
  intro a
  induction a with
  | nil =>
    intro acc
    cases acc with
    | none => simp [tokensAux, hc]
    | some w => simp [tokensAux, hc]
  | cons x a' ih =>
    intro acc
    cases acc with
    | none =>
      by_cases hx : x.isWhitespace <;> simp [tokensAux, hx, ih]
    | some w =>
      by_cases hx : x.isWhitespace <;> simp [tokensAux, hx, ih]

theorem tokens_append_ws {c : Char} (hc : c.isWhitespace = true) (a b : Str) :
    tokens (a ++ c :: b) = tokens a ++ tokens b :=
  tokensAux_append_ws hc b a none

theorem tokens_append_allws {S : Str} (h : ∀ c ∈ S, c.isWhitespace = true)
    (m : Str) : tokens (m ++ S) = tokens m := by
  cases S with
  | nil => simp
  | cons c S' =>
    rw [tokens_append_ws (h c (List.mem_cons_self c S')) m S']
    have h2 : tokens S' = [] :=
      tokensAux_none_allws (fun d hd => h d (List.mem_cons_of_mem c hd))
    rw [h2, List.append_nil]

theorem tokens_dropWhile (l : Str) :
    tokens (l.dropWhile Char.isWhitespace) = tokens l := by
  induction l with
  | nil => rfl
  | cons c cs ih =>
    by_cases hc : c.isWhitespace
    · rw [List.dropWhile_cons_of_pos hc, ih]
      simp [tokens, tokensAux, hc]
    · rw [List.dropWhile_cons_of_neg hc]

theorem tokens_trim (l : Str) : tokens (trim l) = tokens l := by
  have hT : ∀ d ∈ ((l.dropWhile Char.isWhitespace).reverse.takeWhile Char.isWhitespace).reverse,
      d.isWhitespace = true := by
    intro d hd
    exact List.mem_takeWhile_imp (List.mem_reverse.mp hd)
  have h1 : tokens (l.dropWhile Char.isWhitespace) = tokens (trim l) := by
    rw [trim_decomp l]
    exact tokens_append_allws hT (trim l)
  rw [← h1, tokens_dropWhile]

theorem flatTok_append (a b : List Str) :
    flatTok (a ++ b) = flatTok a ++ flatTok b := by
  induction a with
  | nil => rfl
  | cons x xs ih => simp [flatTok, ih]

theorem tokens_joinWith (ls : List Str) :
    tokens (joinWith [' '] ls) = flatTok ls := by
  induction ls with
  | nil => rfl
  | cons x xs ih =>
    cases xs with
    | nil => simp [joinWith, flatTok]
    | cons y rest =>
      have : x ++ [' '] ++ joinWith [' '] (y :: rest) =
          x ++ ' ' :: joinWith [' '] (y :: rest) := by simp
      show tokens (x ++ [' '] ++ joinWith [' '] (y :: rest)) = _
      rw [this, tokens_append_ws (by decide), ih]
      rfl

theorem splitLoop_tokens (maxLength : Nat) (ws : List Str) :
    ∀ (chunks : List Str) (current : Str),
      flatTok (splitLoop maxLength chunks current ws) =
        flatTok chunks ++ tokens current ++ flatTok ws := by
  induction ws with
  | nil =>
    intro chunks current
    by_cases h : current = []
    · subst h
      simp [splitLoop, flatTok, tokens, tokensAux]
    · rw [splitLoop, if_neg h, flatTok_append]
      simp [flatTok, tokens_trim]
  | cons w ws' ih =>
    intro chunks current
    by_cases hg : maxLength < current.length + 1 + w.length
    · rw [splitLoop, if_pos hg, ih, flatTok_append]
      simp [flatTok, tokens_trim, List.append_assoc]
    · rw [splitLoop, if_neg hg, ih]
      by_cases hc : current = []
      · subst hc
        simp [tokens, flatTok, tokensAux]
      · rw [if_neg hc, tokens_append_ws (by decide)]
        simp [flatTok, List.append_assoc]

/-- Claim C6 as stated is false: for `text = "a  b"` (double space, shorter
than the limit) the chunker returns `["a  b"]`, and joining with single
spaces then collapsing consecutive whitespace yields `"a b"`, not the
original text. -/
theorem c6_counterexample :
    (∀ w ∈ splitWords ("a  b".toList), w.length ≤ MAX_MESSAGE_LENGTH) ∧
    normalizeWs (joinWith [' '] (splitMessage ("a  b".toList))) ≠ ("a  b".toList) := by
  refine ⟨by decide, by decide⟩

/-- Claim C6 (amended): joining the chunks with single spaces reproduces the
original text up to whitespace normalisation on both sides — collapsing each
whitespace run to a single space and trimming the ends of the join of the
chunks gives exactly the same normalisation of the original text (the
original's exact spacing is not recovered, as the counterexample shows). -/
theorem c6_reconstruction (maxLength : Nat) (text : Str)
    (hwords : ∀ w ∈ splitWords text, w.length ≤ maxLength) :
    normalizeWs (joinWith [' '] (splitMessageWith maxLength text)) =
      normalizeWs text := by
  unfold splitMessageWith
  by_cases hlen : text.length ≤ maxLength
  · rw [if_pos hlen]
    rfl
  · rw [if_neg hlen]
    unfold normalizeWs
    congr 1
    rw [tokens_joinWith, splitLoop_tokens]
    have h2 : tokens text = flatTok (splitWords text) := by
      conv_lhs => rw [← joinWith_splitCh ' ' text]
      exact tokens_joinWith (splitCh ' ' text)
    rw [h2]
    simp [flatTok, tokens, tokensAux]

/-- Witness: the amended C6 theorem applied at `maxLength = 1`,
`text = "a b"` (every word has length at most 1, the text is split into
three chunks `["", "a", "b"]`, and both sides normalise to `"a b"`). -/
theorem c6_witness :
    (∀ w ∈ splitWords ("a b".toList), w.length ≤ 1) ∧
    normalizeWs (joinWith [' '] (splitMessageWith 1 ("a b".toList))) =
      normalizeWs ("a b".toList) :=
  ⟨by decide, c6_reconstruction 1 ("a b".toList) (by decide)⟩

end Mother

namespace Mother

/-! ## Orchestrator lemmas -/

theorem deliverSeq_all_ok {ok : Nat → Bool} (hok : ∀ n, ok n = true) :
    ∀ (cs : List Str) (i : Nat), deliverSeq ok i cs = (cs, none) := by
  intro cs
  induction cs with
  | nil => intro i; rfl
  | cons c cs' ih =>
    intro i
    simp [deliverSeq, hok i, ih (i + 1)]

theorem deliverSeq_fail {ok : Nat → Bool} :
    ∀ {cs : List Str} {i j : Nat} {ds : List Str},
      deliverSeq ok i cs = (ds, some j) →
      i ≤ j ∧ j < i + cs.length ∧ ds = cs.take (j + 1 - i) := by
  intro cs
  induction cs with
  | nil =>
    intro i j ds h
    simp [deliverSeq] at h
  | cons c cs' ih =>
    intro i j ds h
    by_cases hok : ok i
    · rw [deliverSeq, if_pos hok] at h
      have h2 : (deliverSeq ok (i + 1) cs').2 = some j := by
        have := congrArg Prod.snd h
        simpa using this
      have h1 : ds = c :: (deliverSeq ok (i + 1) cs').1 := by
        have := congrArg Prod.fst h
        simpa using this.symm
      have hih : deliverSeq ok (i + 1) cs' =
          ((deliverSeq ok (i + 1) cs').1, some j) := by rw [← h2]
      have h3 := ih hih
      have h3a := h3.1
      have h3b := h3.2.1
      refine ⟨by omega, ?_, ?_⟩
      · simp only [List.length_cons]
        omega
      · rw [h1, h3.2.2]
        have hj : j + 1 - i = (j + 1 - (i + 1)) + 1 := by omega
        rw [hj, List.take_succ_cons]
    · rw [deliverSeq, if_neg hok] at h
      have hsnd : some i = some j := congrArg Prod.snd h
      have hij : i = j := Option.some.inj hsnd
      subst hij
      have hfst : ([c] : List Str) = ds := congrArg Prod.fst h
      refine ⟨le_refl i, by simp, ?_⟩
      rw [← hfst]
      simp

/-- Claim C7: when the generation step fails (with any failure kind, or any
other error thrown before chunking), the Orchestrator performs exactly one
delivery, carrying exactly the fallback text, then stops; no chunk of backend
output is chunked or delivered, and the turn's outcome follows that single
fallback delivery (no retry). -/
theorem c7_failure_fallback (e : GenError) (ok : Nat → Bool) :
    processMessage (Except.error e) ok = ([fallbackText], ok 0) ∧
    ∀ c ∈ (processMessage (Except.error e) ok).1, c = fallbackText := by
  refine ⟨rfl, ?_⟩
  intro c hc
  have h1 : (processMessage (Except.error e) ok).1 = [fallbackText] := rfl
  rw [h1] at hc
  simpa using hc

/-- Claim C8: deliveries within a turn are sequential and ordered — the model
issues call `n + 1` only after call `n` resolves, and when every delivery
resolves the texts passed to the adapter are exactly the Chunker's chunks in
order. -/
theorem c8_in_order_delivery (resp : TextResponse) (ok : Nat → Bool)
    (hok : ∀ n, ok n = true) :
    processMessage (Except.ok resp) ok = (splitMessage resp.text, true) := by
  simp [processMessage, deliverSeq_all_ok hok]

/-- Witness: the C8 theorem at the concrete turn `"hi"` with an adapter that
always resolves. -/
theorem c8_witness :
    (∀ n, (fun _ : Nat => true) n = true) ∧
    processMessage (Except.ok ⟨"hi".toList, zeroUsage⟩) (fun _ => true) =
      (splitMessage ("hi".toList), true) :=
  ⟨fun _ => rfl,
   c8_in_order_delivery ⟨"hi".toList, zeroUsage⟩ (fun _ => true) (fun _ => rfl)⟩

/-- Claim C1 (amended): if the delivery of chunk `i` fails, the Orchestrator
does not attempt any remaining chunk: the exception propagates to the catch
block, so the turn's deliveries are exactly the chunks up to and including
the failing one followed by the single fallback message. -/
theorem c1_abort_on_delivery_failure (resp : TextResponse) (ok : Nat → Bool)
    (i : Nat) (h : (deliverSeq ok 0 (splitMessage resp.text)).2 = some i) :
    (processMessage (Except.ok resp) ok).1 =
      (splitMessage resp.text).take (i + 1) ++ [fallbackText] := by
  have hds2 : deliverSeq ok 0 (splitMessage resp.text) =
      ((deliverSeq ok 0 (splitMessage resp.text)).1, some i) := by rw [← h]
  have h3 := deliverSeq_fail hds2
  simp only [processMessage, h]
  rw [h3.2.2]
  simp

/-- Witness: the amended C1 theorem at the one-chunk turn `"hi"` whose first
delivery fails. -/
theorem c1_witness :
    (deliverSeq (fun _ => false) 0 (splitMessage ("hi".toList))).2 = some 0 ∧
    (processMessage (Except.ok ⟨"hi".toList, zeroUsage⟩) (fun _ => false)).1 =
      (splitMessage ("hi".toList)).take 1 ++ [fallbackText] :=
  ⟨by decide,
   c1_abort_on_delivery_failure ⟨"hi".toList, zeroUsage⟩ (fun _ => false) 0 (by decide)⟩

/-- Claim C1 as stated is false: for the 4097-character single-word response
the chunk sequence is `["", <word>]`; when the first delivery fails the
Orchestrator delivers only the fallback message next — the remaining chunk
(the word itself) is never passed to the adapter. -/
theorem c1_counterexample :
    splitMessage (List.replicate 4097 'a') = [[], List.replicate 4097 'a'] ∧
    (processMessage (Except.ok ⟨List.replicate 4097 'a', zeroUsage⟩)
        (fun _ => false)).1 = [[], fallbackText] ∧
    List.replicate 4097 'a' ∉
      (processMessage (Except.ok ⟨List.replicate 4097 'a', zeroUsage⟩)
        (fun _ => false)).1 := by
  have hnosp : ' ' ∉ List.replicate 4097 'a' := by
    intro hm
    exact absurd (List.mem_replicate.mp hm).2 (by decide)
  have htrim : trim (List.replicate 4097 'a') = List.replicate 4097 'a' := by
    apply trim_eq_self_of
    intro c hc
    rw [(List.mem_replicate.mp hc).2]
    decide
  have hsplit : splitMessage (List.replicate 4097 'a') = [[], List.replicate 4097 'a'] := by
    unfold splitMessage splitMessageWith
    rw [if_neg (by rw [List.length_replicate]; decide)]
    rw [show splitWords (List.replicate 4097 'a') = [List.replicate 4097 'a'] from
      splitCh_eq_single hnosp]
    rw [splitLoop, if_pos (by rw [List.length_replicate]; decide)]
    rw [splitLoop, if_neg (fun hh => absurd (congrArg List.length hh)
      (by rw [List.length_replicate]; decide))]
    rw [htrim]
    rfl
  have hds : deliverSeq (fun _ => false) 0 [[], List.replicate 4097 'a'] =
      ([[]], some 0) := rfl
  have hpm : (processMessage (Except.ok ⟨List.replicate 4097 'a', zeroUsage⟩)
      (fun _ => false)).1 = [[], fallbackText] := by
    simp only [processMessage, hsplit, hds]
    rfl
  refine ⟨hsplit, hpm, ?_⟩
  rw [hpm]
  intro hm
  rcases List.mem_cons.mp hm with h1 | h1
  · exact absurd (congrArg List.length h1)
      (by rw [List.length_replicate]; decide)
  · rcases List.mem_cons.mp h1 with h2 | h2
    · exact absurd (congrArg List.length h2)
        (by rw [List.length_replicate]; decide)
    · exact absurd h2 (List.not_mem_nil _)

/-- Claim C10: the promise returned by processMessage rejects only when the
fallback delivery itself rejects — whenever the turn's outcome is a
rejection, the last `reply` call carried the fallback text and that call's
outcome was a rejection; every other error was caught inside
processMessage. -/
theorem c10_reject_only_fallback (gen : Except GenError TextResponse)
    (ok : Nat → Bool) (h : (processMessage gen ok).2 = false) :
    (processMessage gen ok).1.getLast? = some fallbackText ∧
    ok ((processMessage gen ok).1.length - 1) = false := by
  cases gen with
  | error e =>
    have hpm : processMessage (Except.error e) ok = ([fallbackText], ok 0) := rfl
    rw [hpm] at h ⊢
    exact ⟨rfl, by simpa using h⟩
  | ok resp =>
    rcases hd : (deliverSeq ok 0 (splitMessage resp.text)).2 with _ | i
    · have h2 : (processMessage (Except.ok resp) ok).2 = true := by
        simp only [processMessage, hd]
      rw [h2] at h
      exact absurd h (by decide)
    · have hds2 : deliverSeq ok 0 (splitMessage resp.text) =
          ((deliverSeq ok 0 (splitMessage resp.text)).1, some i) := by rw [← hd]
      have h3 := deliverSeq_fail hds2
      have hpm : processMessage (Except.ok resp) ok =
          ((deliverSeq ok 0 (splitMessage resp.text)).1 ++ [fallbackText],
            ok (i + 1)) := by
        simp only [processMessage, hd]
      rw [hpm] at h ⊢
      refine ⟨List.getLast?_concat _, ?_⟩
      have hlen : (deliverSeq ok 0 (splitMessage resp.text)).1.length = i + 1 := by
        rw [h3.2.2, List.length_take]
        have := h3.2.1
        omega
      simp only [List.length_append, hlen, List.length_cons, List.length_nil]
      simpa using h

/-- Witness: the C10 theorem at a generation failure whose fallback delivery
also rejects. -/
theorem c10_witness :
    (processMessage (Except.error GenError.fetchFailed) (fun _ => false)).2 = false ∧
    ((processMessage (Except.error GenError.fetchFailed) (fun _ => false)).1.getLast? =
        some fallbackText ∧
     (fun _ : Nat => false)
       ((processMessage (Except.error GenError.fetchFailed)
          (fun _ => false)).1.length - 1) = false) :=
  ⟨by decide,
   c10_reject_only_fallback (Except.error GenError.fetchFailed) (fun _ => false)
     (by decide)⟩

end Mother

namespace Mother

/-- Claim C2: for every prompt, when the backend returns a success response
whose extracted message content is non-empty but becomes the empty string
after sanitization, generateText fails with the empty-after-cleaning error
(carrying the choice's finish reason) rather than returning a
GenerationResult with empty text. -/
theorem c2_empty_generation (raw fr role : Str) (idx : Nat)
    (rest : List GaiaChoice) (u : Option GaiaUsage)
    (hraw : raw ≠ []) (hclean : cleanResponse raw = []) :
    generateText (FetchOutcome.ok ⟨⟨fr, idx, ⟨role, raw⟩⟩ :: rest, u⟩) =
      Except.error (GenError.emptyCleaned fr) := by
  simp [generateText, hraw, hclean]

/-- Witness: the C2 theorem at content `"(hi)"` — non-empty, entirely a
parenthetical aside, sanitized to the empty string. -/
theorem c2_witness :
    ("(hi)".toList ≠ [] ∧ cleanResponse ("(hi)".toList) = []) ∧
    generateText (FetchOutcome.ok
        ⟨[⟨"stop".toList, 0, ⟨"assistant".toList, "(hi)".toList⟩⟩], none⟩) =
      Except.error (GenError.emptyCleaned ("stop".toList)) :=
  ⟨⟨by decide, by decide⟩,
   c2_empty_generation ("(hi)".toList) ("stop".toList) ("assistant".toList) 0 [] none
     (by decide) (by decide)⟩

/-- Claim C5: generateText sends exactly one POST request, to
`{backendUrl}/chat/completions`, whose JSON body is
`{model, messages: [{role: "user", content: prompt}], max_tokens: 500}`, and
extracts the generated text from `choices[0].message.content` of the success
response (returned sanitized). -/
theorem c5_request_shape (serverUrl : Str) (model : Option Str) (prompt : Str)
    (raw fr role : Str) (idx : Nat) (rest : List GaiaChoice) (u : Option GaiaUsage)
    (hraw : raw ≠ []) (hclean : cleanResponse raw ≠ []) :
    gaianetRequest serverUrl model prompt =
      ⟨serverUrl ++ "/chat/completions".toList, true,
        RequestBody.chatBody model [("user".toList, prompt)] 500⟩ ∧
    generateText (FetchOutcome.ok ⟨⟨fr, idx, ⟨role, raw⟩⟩ :: rest, u⟩) =
      Except.ok ⟨cleanResponse raw, u.getD zeroUsage⟩ :=
  ⟨rfl, by simp [generateText, hraw, hclean]⟩

/-- Witness: the C5 theorem at concrete server URL, prompt and response
content. -/
theorem c5_witness :
    ("x".toList ≠ [] ∧ cleanResponse ("x".toList) ≠ []) ∧
    (gaianetRequest ("S".toList) none ("p".toList) =
      ⟨"S".toList ++ "/chat/completions".toList, true,
        RequestBody.chatBody none [("user".toList, "p".toList)] 500⟩ ∧
     generateText (FetchOutcome.ok
        ⟨[⟨"stop".toList, 0, ⟨"assistant".toList, "x".toList⟩⟩], none⟩) =
      Except.ok ⟨cleanResponse ("x".toList), zeroUsage⟩) :=
  ⟨⟨by decide, by decide⟩,
   c5_request_shape ("S".toList) none ("p".toList) ("x".toList) ("stop".toList)
     ("assistant".toList) 0 [] none (by decide) (by decide)⟩

/-- Claim C9: when the persona's `templates.messageHandlerTemplate` is absent
or empty, the template processMessage hands to the prompt composer is the
built-in fallback, which contains both the persona-name placeholder
`{{agentName}}` and the raw-message placeholder `{{currentPost}}`, so a
prompt can always be produced. -/
theorem c9_fallback_template (mt : Option Str)
    (h : mt = none ∨ mt = some []) :
    resolveTemplate mt = fallbackTemplate ∧
    occursB ("\x7b\x7bagentName\x7d\x7d".toList) fallbackTemplate = true ∧
    occursB ("\x7b\x7bcurrentPost\x7d\x7d".toList) fallbackTemplate = true := by
  refine ⟨?_, by decide, by decide⟩
  rcases h with h | h <;> subst h <;> rfl

/-- Witness: the C9 theorem at an absent template. -/
theorem c9_witness :
    ((none : Option Str) = none ∨ (none : Option Str) = some []) ∧
    (resolveTemplate none = fallbackTemplate ∧
     occursB ("\x7b\x7bagentName\x7d\x7d".toList) fallbackTemplate = true ∧
     occursB ("\x7b\x7bcurrentPost\x7d\x7d".toList) fallbackTemplate = true) :=
  ⟨Or.inl rfl, c9_fallback_template none (Or.inl rfl)⟩

end Mother
